import Mathlib

/-!
Verification of the streaming statistics layer of `statrs`
(`src/statistics/iter_statistics.rs`): `abs_min`, `abs_max`, `mean`,
`geometric_mean`, `harmonic_mean` over `f64` iterators.

The double-precision values are modelled by the inductive type `F`:
not-a-number, the two infinities, negative zero, and finite values carried
as exact rationals (`F.fin 0` is positive zero).  The arithmetic on `F`
follows the IEEE-754 rules for special values; finite arithmetic is exact
rational arithmetic (the idealisation: rounding is not modelled).  The
transcendental functions are only pinned down on the special values the
IEEE standard fixes (`ln 0 = -inf`, `ln x = NaN` for `x < 0`,
`exp (-inf) = 0`, ...); their values at positive finite inputs are taken
as parameters (`lnFin`, `expFin`), so every theorem below holds for every
choice of those values — none of the verified properties depends on the
actual value of a logarithm or exponential at a finite point.
-/

/-- Model of an `f64` value: not-a-number, positive infinity, negative
infinity, negative zero, or a finite value carried as an exact rational
(`fin 0` is positive zero). -/
inductive F where
  | nan : F
  | inf : F
  | ninf : F
  | nzero : F
  | fin : ℚ → F
  deriving DecidableEq

namespace F

/-- IEEE test `x.is_nan()`. -/
def isNaN : F → Bool
  | nan => true
  | _ => false

/-- IEEE test `x.is_finite()` (true for finite values including both zeros). -/
def isFinite : F → Bool
  | fin _ => true
  | nzero => true
  | _ => false

/-- IEEE strict comparison `a < b`: false whenever an operand is
not-a-number, and the two zeros compare equal. -/
def blt : F → F → Bool
  | nan, _ => false
  | _, nan => false
  | ninf, ninf => false
  | ninf, _ => true
  | _, ninf => false
  | inf, _ => false
  | _, inf => true
  | nzero, nzero => false
  | nzero, fin r => decide (0 < r)
  | fin q, nzero => decide (q < 0)
  | fin q, fin r => decide (q < r)

/-- IEEE comparison `a ≤ b`: false whenever an operand is not-a-number,
and the two zeros compare equal. -/
def ble : F → F → Bool
  | nan, _ => false
  | _, nan => false
  | ninf, _ => true
  | _, ninf => false
  | _, inf => true
  | inf, _ => false
  | nzero, nzero => true
  | nzero, fin r => decide (0 ≤ r)
  | fin q, nzero => decide (q ≤ 0)
  | fin q, fin r => decide (q ≤ r)

/-- IEEE negation. -/
def neg : F → F
  | nan => nan
  | inf => ninf
  | ninf => inf
  | nzero => fin 0
  | fin q => if q = 0 then nzero else fin (-q)

/-- IEEE `|x|`. -/
def abs : F → F
  | nan => nan
  | inf => inf
  | ninf => inf
  | nzero => fin 0
  | fin q => fin |q|

/-- IEEE addition (round-to-nearest signed-zero convention: a sum that is
exactly zero from two nonzero operands is positive zero, and
`-0 + -0 = -0`). -/
def add : F → F → F
  | nan, _ => nan
  | _, nan => nan
  | inf, ninf => nan
  | ninf, inf => nan
  | inf, _ => inf
  | _, inf => inf
  | ninf, _ => ninf
  | _, ninf => ninf
  | nzero, nzero => nzero
  | nzero, fin r => fin r
  | fin q, nzero => fin q
  | fin q, fin r => fin (q + r)

/-- IEEE subtraction, as `a + (-b)`. -/
def sub (a b : F) : F := add a (neg b)

/-- IEEE division, including the signed-zero and infinity conventions
(`1/0 = +inf`, `1/(-0) = -inf`, `x/inf` is a signed zero, `0/0` and
`inf/inf` are not-a-number). -/
def div : F → F → F
  | nan, _ => nan
  | _, nan => nan
  | inf, inf => nan
  | inf, ninf => nan
  | ninf, inf => nan
  | ninf, ninf => nan
  | inf, nzero => ninf
  | inf, fin r => if r < 0 then ninf else inf
  | ninf, nzero => inf
  | ninf, fin r => if r < 0 then inf else ninf
  | nzero, inf => nzero
  | nzero, ninf => fin 0
  | nzero, nzero => nan
  | nzero, fin r => if r = 0 then nan else if r < 0 then fin 0 else nzero
  | fin q, inf => if q < 0 then nzero else fin 0
  | fin q, ninf => if q < 0 then fin 0 else nzero
  | fin q, nzero => if q = 0 then nan else if q < 0 then inf else ninf
  | fin q, fin r =>
      if r = 0 then (if q = 0 then nan else if q < 0 then ninf else inf)
      else if q = 0 then (if r < 0 then nzero else fin 0)
      else fin (q / r)

/-- IEEE natural logarithm; `lnFin` supplies the (unconstrained) value at
positive finite inputs.  `ln (-0) = ln 0 = -inf`, `ln x = NaN` for
negative `x`, `ln inf = inf`. -/
def ln (lnFin : ℚ → ℚ) : F → F
  | nan => nan
  | inf => inf
  | ninf => nan
  | nzero => ninf
  | fin q => if q = 0 then ninf else if q < 0 then nan else fin (lnFin q)

/-- IEEE exponential; `expFin` supplies the (unconstrained) result at
nonzero finite inputs (it may overflow to infinity).  `exp (-inf) = 0`,
`exp inf = inf`, `exp (±0) = 1`. -/
def exp (expFin : ℚ → F) : F → F
  | nan => nan
  | inf => inf
  | ninf => fin 0
  | nzero => fin 1
  | fin q => if q = 0 then fin 1 else expFin q

end F

/-- Fold step of `abs_min` from the source:
`|acc, x| if x < acc || x.is_nan() { x } else { acc }`. -/
def minStep (acc x : F) : F := if F.blt x acc || x.isNaN then x else acc

/-- Fold step of `abs_max` from the source:
`|acc, x| if x > acc || x.is_nan() { x } else { acc }`. -/
def maxStep (acc x : F) : F := if F.blt acc x || x.isNaN then x else acc

/-- `abs_min` from the source: `NaN` on the empty sequence, otherwise the
fold of `minStep` over the absolute values, seeded with the absolute value
of the first element. -/
def abs_min : List F → F
  | [] => F.nan
  | init :: rest => (rest.map F.abs).foldl minStep init.abs

/-- `abs_max` from the source: `NaN` on the empty sequence, otherwise the
fold of `maxStep` over the absolute values, seeded with the absolute value
of the first element. -/
def abs_max : List F → F
  | [] => F.nan
  | init :: rest => (rest.map F.abs).foldl maxStep init.abs

/-- Loop body of `mean` from the source:
`count += 1.0; mean += (x - mean) / count`.  The count is carried as an
exact rational (the source carries it as an `f64`; for any sequence short
enough that the increments are exact the two agree). -/
def meanStep (p : ℚ × F) (x : F) : ℚ × F :=
  (p.1 + 1, F.add p.2 (F.div (F.sub x p.2) (F.fin (p.1 + 1))))

/-- `mean` from the source: fold `meanStep` from `(0, 0.0)`, return the
running mean if `count > 0` and `NaN` otherwise. -/
def mean (l : List F) : F :=
  let r := l.foldl meanStep ((0 : ℚ), F.fin 0)
  if 0 < r.1 then r.2 else F.nan

/-- Loop body of `geometric_mean` from the source:
`count += 1.0; sum += x.ln()`. -/
def geoStep (lnFin : ℚ → ℚ) (p : ℚ × F) (x : F) : ℚ × F :=
  (p.1 + 1, F.add p.2 (F.ln lnFin x))

/-- `geometric_mean` from the source: fold `geoStep` from `(0, 0.0)`,
return `(sum / count).exp()` if `count > 0` and `NaN` otherwise. -/
def geometric_mean (lnFin : ℚ → ℚ) (expFin : ℚ → F) (l : List F) : F :=
  let r := l.foldl (geoStep lnFin) ((0 : ℚ), F.fin 0)
  if 0 < r.1 then F.exp expFin (F.div r.2 (F.fin r.1)) else F.nan

/-- Loop of `harmonic_mean` from the source: for each element,
`count += 1.0`, then an early `return NaN` if the value is strictly
negative, else `sum += 1.0 / val`; after the loop, `count / sum` if
`count > 0` and `NaN` otherwise. -/
def harmonicLoop : List F → ℚ → F → F
  | [], count, sum => if 0 < count then F.div (F.fin count) sum else F.nan
  | x :: rest, count, sum =>
      if F.blt x (F.fin 0) then F.nan
      else harmonicLoop rest (count + 1) (F.add sum (F.div (F.fin 1) x))

/-- `harmonic_mean` from the source, starting from `count = 0`,
`sum = 0.0`. -/
def harmonic_mean (l : List F) : F := harmonicLoop l 0 (F.fin 0)

/-- The incremental update exactly as the specification words it:
maintain `count` and `running_mean`; for each new value `x`,
`count += 1` and `running_mean += (x - running_mean) / count`. -/
def welfordUpdate (count : ℚ) (runningMean : F) (x : F) : ℚ × F :=
  (count + 1, F.add runningMean (F.div (F.sub x runningMean) (F.fin (count + 1))))

/-- The mean as the specification describes it: the fold of
`welfordUpdate` from `count = 0`, `running_mean = 0`, with the empty
sequence yielding not-a-number. -/
def welfordSpec (l : List F) : F :=
  if l = [] then F.nan
  else (l.foldl (fun p x => welfordUpdate p.1 p.2 x) ((0 : ℚ), F.fin 0)).2

/-! ### Order lemmas for the IEEE comparisons (on values that are not
not-a-number the comparisons form a linear order) -/

theorem F.isNaN_eq_false {x : F} (h : x ≠ F.nan) : x.isNaN = false := by
  cases x
  case nan => exact absurd rfl h
  all_goals rfl

theorem F.abs_ne_nan {x : F} (h : x ≠ F.nan) : x.abs ≠ F.nan := by
  cases x
  case nan => exact absurd rfl h
  all_goals simp [F.abs]

theorem F.abs_eq_nan_iff {x : F} : x.abs = F.nan ↔ x = F.nan := by
  cases x <;> simp [F.abs]

theorem F.ble_refl {a : F} (ha : a ≠ F.nan) : F.ble a a = true := by
  cases a
  case nan => exact absurd rfl ha
  all_goals simp [F.ble]

theorem F.ble_of_blt {a b : F} (h : F.blt a b = true) : F.ble a b = true := by
  cases a <;> cases b <;> simp_all [F.blt, F.ble] <;> linarith

theorem F.ble_of_not_blt {a b : F} (ha : a ≠ F.nan) (hb : b ≠ F.nan)
    (h : F.blt a b = false) : F.ble b a = true := by
  cases a <;> cases b <;> simp_all [F.blt, F.ble]

theorem F.ble_trans {a b c : F} (ha : a ≠ F.nan) (hb : b ≠ F.nan) (hc : c ≠ F.nan)
    (h1 : F.ble a b = true) (h2 : F.ble b c = true) : F.ble a c = true := by
  cases a <;> cases b <;> cases c <;> simp_all [F.ble] <;> linarith

/-! ### Behaviour of the abs-extrema folds -/

theorem foldl_minStep_nan : ∀ xs : List F, xs.foldl minStep F.nan = F.nan := by
  intro xs
  induction xs with
  | nil => rfl
  | cons x t ih =>
      have hstep : minStep F.nan x = F.nan := by
        cases x <;> simp [minStep, F.blt, F.isNaN]
      simp only [List.foldl_cons, hstep, ih]

theorem foldl_maxStep_nan : ∀ xs : List F, xs.foldl maxStep F.nan = F.nan := by
  intro xs
  induction xs with
  | nil => rfl
  | cons x t ih =>
      have hstep : maxStep F.nan x = F.nan := by
        cases x <;> simp [maxStep, F.blt, F.isNaN]
      simp only [List.foldl_cons, hstep, ih]

theorem foldl_minStep_mem_nan :
    ∀ (xs : List F) (acc : F), F.nan ∈ xs → xs.foldl minStep acc = F.nan := by
  intro xs
  induction xs with
  | nil => intro acc h; simp at h
  | cons x t ih =>
      intro acc h
      rcases List.mem_cons.mp h with h1 | h2
      · have hstep : minStep acc F.nan = F.nan := by simp [minStep, F.isNaN]
        rw [← h1, List.foldl_cons, hstep, foldl_minStep_nan]
      · rw [List.foldl_cons]
        exact ih _ h2

theorem foldl_maxStep_mem_nan :
    ∀ (xs : List F) (acc : F), F.nan ∈ xs → xs.foldl maxStep acc = F.nan := by
  intro xs
  induction xs with
  | nil => intro acc h; simp at h
  | cons x t ih =>
      intro acc h
      rcases List.mem_cons.mp h with h1 | h2
      · have hstep : maxStep acc F.nan = F.nan := by simp [maxStep, F.isNaN]
        rw [← h1, List.foldl_cons, hstep, foldl_maxStep_nan]
      · rw [List.foldl_cons]
        exact ih _ h2

theorem foldl_minStep_spec :
    ∀ (xs : List F) (acc : F), acc ≠ F.nan → (∀ x ∈ xs, x ≠ F.nan) →
      (xs.foldl minStep acc = acc ∨ xs.foldl minStep acc ∈ xs) ∧
      xs.foldl minStep acc ≠ F.nan ∧
      F.ble (xs.foldl minStep acc) acc = true ∧
      ∀ y ∈ xs, F.ble (xs.foldl minStep acc) y = true := by
  intro xs
  induction xs with
  | nil =>
      intro acc ha _
      exact ⟨Or.inl rfl, ha, F.ble_refl ha, by simp⟩
  | cons x t ih =>
      intro acc ha hx
      have hxn : x ≠ F.nan := hx x (List.mem_cons_self x t)
      have ht : ∀ y ∈ t, y ≠ F.nan := fun y hy => hx y (List.mem_cons_of_mem x hy)
      simp only [List.foldl_cons]
      by_cases hblt : F.blt x acc = true
      · have hstep : minStep acc x = x := by simp [minStep, hblt]
        rw [hstep]
        obtain ⟨hmem, hnn, hle, hall⟩ := ih x hxn ht
        refine ⟨?_, hnn, ?_, ?_⟩
        · rcases hmem with h | h
          · exact Or.inr (by rw [h]; exact List.mem_cons_self x t)
          · exact Or.inr (List.mem_cons_of_mem x h)
        · exact F.ble_trans hnn hxn ha hle (F.ble_of_blt hblt)
        · intro y hy
          rcases List.mem_cons.mp hy with rfl | hy'
          · exact hle
          · exact hall y hy'
      · have hbltf : F.blt x acc = false := by simpa using hblt
        have hstep : minStep acc x = acc := by
          simp [minStep, hbltf, F.isNaN_eq_false hxn]
        rw [hstep]
        obtain ⟨hmem, hnn, hle, hall⟩ := ih acc ha ht
        refine ⟨?_, hnn, hle, ?_⟩
        · rcases hmem with h | h
          · exact Or.inl h
          · exact Or.inr (List.mem_cons_of_mem x h)
        · intro y hy
          rcases List.mem_cons.mp hy with rfl | hy'
          · exact F.ble_trans hnn ha hxn hle (F.ble_of_not_blt hxn ha hbltf)
          · exact hall y hy'

theorem foldl_maxStep_spec :
    ∀ (xs : List F) (acc : F), acc ≠ F.nan → (∀ x ∈ xs, x ≠ F.nan) →
      (xs.foldl maxStep acc = acc ∨ xs.foldl maxStep acc ∈ xs) ∧
      xs.foldl maxStep acc ≠ F.nan ∧
      F.ble acc (xs.foldl maxStep acc) = true ∧
      ∀ y ∈ xs, F.ble y (xs.foldl maxStep acc) = true := by
  intro xs
  induction xs with
  | nil =>
      intro acc ha _
      exact ⟨Or.inl rfl, ha, F.ble_refl ha, by simp⟩
  | cons x t ih =>
      intro acc ha hx
      have hxn : x ≠ F.nan := hx x (List.mem_cons_self x t)
      have ht : ∀ y ∈ t, y ≠ F.nan := fun y hy => hx y (List.mem_cons_of_mem x hy)
      simp only [List.foldl_cons]
      by_cases hblt : F.blt acc x = true
      · have hstep : maxStep acc x = x := by simp [maxStep, hblt]
        rw [hstep]
        obtain ⟨hmem, hnn, hle, hall⟩ := ih x hxn ht
        refine ⟨?_, hnn, ?_, ?_⟩
        · rcases hmem with h | h
          · exact Or.inr (by rw [h]; exact List.mem_cons_self x t)
          · exact Or.inr (List.mem_cons_of_mem x h)
        · exact F.ble_trans ha hxn hnn (F.ble_of_blt hblt) hle
        · intro y hy
          rcases List.mem_cons.mp hy with rfl | hy'
          · exact hle
          · exact hall y hy'
      · have hbltf : F.blt acc x = false := by simpa using hblt
        have hstep : maxStep acc x = acc := by
          simp [maxStep, hbltf, F.isNaN_eq_false hxn]
        rw [hstep]
        obtain ⟨hmem, hnn, hle, hall⟩ := ih acc ha ht
        refine ⟨?_, hnn, hle, ?_⟩
        · rcases hmem with h | h
          · exact Or.inl h
          · exact Or.inr (List.mem_cons_of_mem x h)
        · intro y hy
          rcases List.mem_cons.mp hy with rfl | hy'
          · exact F.ble_trans hxn ha hnn (F.ble_of_not_blt ha hxn hbltf) hle
          · exact hall y hy'

/-! ### Not-a-number propagation through the arithmetic -/

theorem F.add_nan_left (z : F) : F.add F.nan z = F.nan := by cases z <;> rfl

theorem F.add_nan_right (z : F) : F.add z F.nan = F.nan := by cases z <;> rfl

theorem F.div_nan_left (z : F) : F.div F.nan z = F.nan := by cases z <;> rfl

theorem F.sub_nan_left (z : F) : F.sub F.nan z = F.nan := F.add_nan_left (F.neg z)

theorem F.sub_nan_right (z : F) : F.sub z F.nan = F.nan := by cases z <;> rfl

/-! ### The mean fold -/

theorem meanFold_count :
    ∀ (xs : List F) (c : ℚ) (s : F), (xs.foldl meanStep (c, s)).1 = c + xs.length := by
  intro xs
  induction xs with
  | nil => intro c s; simp
  | cons x t ih =>
      intro c s
      rw [List.foldl_cons]
      show (t.foldl meanStep (c + 1, _)).1 = _
      rw [ih]
      simp only [List.length_cons]
      push_cast
      ring

theorem meanFold_nan :
    ∀ (xs : List F) (c : ℚ), (xs.foldl meanStep (c, F.nan)).2 = F.nan := by
  intro xs
  induction xs with
  | nil => intro c; rfl
  | cons x t ih =>
      intro c
      have hstep : meanStep (c, F.nan) x = (c + 1, F.nan) := by
        simp [meanStep, F.sub_nan_right, F.div_nan_left, F.add_nan_left]
      rw [List.foldl_cons, hstep]
      exact ih (c + 1)

theorem meanFold_mem_nan :
    ∀ (xs : List F) (c : ℚ) (s : F), F.nan ∈ xs →
      (xs.foldl meanStep (c, s)).2 = F.nan := by
  intro xs
  induction xs with
  | nil => intro c s h; simp at h
  | cons x t ih =>
      intro c s h
      rcases List.mem_cons.mp h with h1 | h2
      · have hstep : meanStep (c, s) F.nan = (c + 1, F.nan) := by
          simp [meanStep, F.sub_nan_left, F.div_nan_left, F.add_nan_right]
        rw [← h1, List.foldl_cons, hstep]
        exact meanFold_nan t (c + 1)
      · rw [List.foldl_cons]
        exact ih _ _ h2

/-- C1: for every sequence, `abs_min` returns not-a-number if any element
is not-a-number (and the not-a-number accumulator is sticky: the fold
leaves a not-a-number accumulator unchanged forever), and otherwise, on a
non-empty sequence without not-a-number elements, it returns the smallest
absolute value of the elements; `abs_max` is symmetric, returning the
largest absolute value, with the same not-a-number propagation. -/
theorem claim1_abs_extrema :
    (∀ xs : List F, xs.foldl minStep F.nan = F.nan ∧ xs.foldl maxStep F.nan = F.nan) ∧
    (∀ l : List F, F.nan ∈ l → abs_min l = F.nan ∧ abs_max l = F.nan) ∧
    (∀ l : List F, l ≠ [] → F.nan ∉ l →
      (abs_min l ∈ l.map F.abs ∧ ∀ y ∈ l.map F.abs, F.ble (abs_min l) y = true) ∧
      (abs_max l ∈ l.map F.abs ∧ ∀ y ∈ l.map F.abs, F.ble y (abs_max l) = true)) := by
  refine ⟨fun xs => ⟨foldl_minStep_nan xs, foldl_maxStep_nan xs⟩, ?_, ?_⟩
  · intro l hmem
    cases l with
    | nil => simp at hmem
    | cons x t =>
        rcases List.mem_cons.mp hmem with h1 | h2
        · constructor
          · show (t.map F.abs).foldl minStep x.abs = F.nan
            rw [← h1]
            exact foldl_minStep_nan (t.map F.abs)
          · show (t.map F.abs).foldl maxStep x.abs = F.nan
            rw [← h1]
            exact foldl_maxStep_nan (t.map F.abs)
        · have hmem' : F.nan ∈ t.map F.abs := List.mem_map.mpr ⟨F.nan, h2, rfl⟩
          exact ⟨foldl_minStep_mem_nan _ _ hmem', foldl_maxStep_mem_nan _ _ hmem'⟩
  · intro l hne hnan
    cases l with
    | nil => exact absurd rfl hne
    | cons x t =>
        have hnx : F.nan ≠ x ∧ F.nan ∉ t := by simpa [List.mem_cons] using hnan
        have hxa : x.abs ≠ F.nan := F.abs_ne_nan (fun h => hnx.1 h.symm)
        have hta : ∀ y ∈ t.map F.abs, y ≠ F.nan := by
          intro y hy
          rcases List.mem_map.mp hy with ⟨z, hz, rfl⟩
          exact F.abs_ne_nan (fun h => hnx.2 (h ▸ hz))
        obtain ⟨hmem, hnn, hle, hall⟩ := foldl_minStep_spec (t.map F.abs) x.abs hxa hta
        obtain ⟨hmem', hnn', hle', hall'⟩ := foldl_maxStep_spec (t.map F.abs) x.abs hxa hta
        constructor
        · constructor
          · show (t.map F.abs).foldl minStep x.abs ∈ (x :: t).map F.abs
            rw [List.map_cons]
            rcases hmem with h | h
            · rw [h]; exact List.mem_cons_self _ _
            · exact List.mem_cons_of_mem _ h
          · intro y hy
            rw [List.map_cons] at hy
            rcases List.mem_cons.mp hy with rfl | hy'
            · exact hle
            · exact hall y hy'
        · constructor
          · show (t.map F.abs).foldl maxStep x.abs ∈ (x :: t).map F.abs
            rw [List.map_cons]
            rcases hmem' with h | h
            · rw [h]; exact List.mem_cons_self _ _
            · exact List.mem_cons_of_mem _ h
          · intro y hy
            rw [List.map_cons] at hy
            rcases List.mem_cons.mp hy with rfl | hy'
            · exact hle'
            · exact hall' y hy'

/-- Witness for C1 at concrete inputs: a not-a-number element forces a
not-a-number result, and on `[0.0, 3.0, -2.0]` the minimum-of-absolute
values result is a member of the absolute values bounded by `|3.0|`. -/
theorem claim1_abs_extrema_witness :
    abs_min [F.fin 0, F.nan, F.fin 3] = F.nan ∧
    abs_min [F.fin 0, F.fin 3, F.fin (-2)] ∈
      [F.fin 0, F.fin 3, F.fin (-2)].map F.abs ∧
    F.ble (abs_min [F.fin 0, F.fin 3, F.fin (-2)]) (F.abs (F.fin 3)) = true := by
  refine ⟨(claim1_abs_extrema.2.1 [F.fin 0, F.nan, F.fin 3] (by simp)).1, ?_, ?_⟩
  · exact (claim1_abs_extrema.2.2 [F.fin 0, F.fin 3, F.fin (-2)] (by simp) (by simp)).1.1
  · exact (claim1_abs_extrema.2.2 [F.fin 0, F.fin 3, F.fin (-2)] (by simp)
      (by simp)).1.2 (F.abs (F.fin 3)) (by simp)

/-- C2: the mean equals the fold of the incremental (Welford-style)
recurrence from `count = 0`, `running_mean = 0`; the empty sequence yields
not-a-number; a not-a-number element makes the result not-a-number; and a
not-a-number running mean stays not-a-number through all later updates. -/
theorem claim2_mean_welford :
    (∀ l : List F, mean l = welfordSpec l) ∧
    mean [] = F.nan ∧
    (∀ l : List F, F.nan ∈ l → mean l = F.nan) ∧
    (∀ (xs : List F) (c : ℚ), (xs.foldl meanStep (c, F.nan)).2 = F.nan) := by
  refine ⟨?_, rfl, ?_, meanFold_nan⟩
  · intro l
    cases l with
    | nil => rfl
    | cons x t =>
        have hc := meanFold_count (x :: t) 0 (F.fin 0)
        simp only [mean, welfordSpec, if_neg (List.cons_ne_nil x t)]
        rw [if_pos]
        · rfl
        · rw [hc, List.length_cons]
          push_cast
          positivity
  · intro l hmem
    have hne : l ≠ [] := by rintro rfl; simp at hmem
    have hc := meanFold_count l 0 (F.fin 0)
    simp only [mean]
    rw [if_pos, meanFold_mem_nan l 0 (F.fin 0) hmem]
    rw [hc]
    have : (0 : ℚ) < l.length := by
      have := List.length_pos.mpr hne
      exact_mod_cast this
    linarith

/-- Witness for C2 at concrete inputs: the mean of `[NaN, 1.0]` is
not-a-number, and on `[2.0, 4.0]` the mean agrees with the spec
recurrence. -/
theorem claim2_mean_welford_witness :
    mean [F.nan, F.fin 1] = F.nan ∧ mean [F.fin 2, F.fin 4] = welfordSpec [F.fin 2, F.fin 4] :=
  ⟨claim2_mean_welford.2.2.1 [F.nan, F.fin 1] (by simp),
   claim2_mean_welford.1 [F.fin 2, F.fin 4]⟩

/-- C7: on a non-empty sequence without not-a-number elements, whenever
both `abs_min` and `abs_max` are finite, `abs_min ≤ abs_max` in the IEEE
order. -/
theorem claim7_abs_min_le_abs_max (l : List F) (hne : l ≠ []) (hnan : F.nan ∉ l)
    (hmin : (abs_min l).isFinite = true) (hmax : (abs_max l).isFinite = true) :
    F.ble (abs_min l) (abs_max l) = true := by
  cases l with
  | nil => exact absurd rfl hne
  | cons x t =>
      have hnx : F.nan ≠ x ∧ F.nan ∉ t := by simpa [List.mem_cons] using hnan
      have hxa : x.abs ≠ F.nan := F.abs_ne_nan (fun h => hnx.1 h.symm)
      have hta : ∀ y ∈ t.map F.abs, y ≠ F.nan := by
        intro y hy
        rcases List.mem_map.mp hy with ⟨z, hz, rfl⟩
        exact F.abs_ne_nan (fun h => hnx.2 (h ▸ hz))
      obtain ⟨hmem, hnn, hle, hall⟩ := foldl_minStep_spec (t.map F.abs) x.abs hxa hta
      obtain ⟨hmem', hnn', hle', hall'⟩ := foldl_maxStep_spec (t.map F.abs) x.abs hxa hta
      show F.ble ((t.map F.abs).foldl minStep x.abs) ((t.map F.abs).foldl maxStep x.abs)
        = true
      rcases hmem' with h | h
      · rw [h]; exact hle
      · exact hall _ h

/-- Witness for C7 at a concrete input: on `[3.0, -2.0]` both extrema are
finite and the minimum absolute value is at most the maximum. -/
theorem claim7_abs_min_le_abs_max_witness :
    ([F.fin 3, F.fin (-2)] ≠ ([] : List F)) ∧
    F.nan ∉ [F.fin 3, F.fin (-2)] ∧
    (abs_min [F.fin 3, F.fin (-2)]).isFinite = true ∧
    (abs_max [F.fin 3, F.fin (-2)]).isFinite = true ∧
    F.ble (abs_min [F.fin 3, F.fin (-2)]) (abs_max [F.fin 3, F.fin (-2)]) = true :=
  ⟨by simp, by simp, by decide, by decide,
   claim7_abs_min_le_abs_max [F.fin 3, F.fin (-2)] (by simp) (by simp)
     (by decide) (by decide)⟩

/-! ### The harmonic-mean loop -/

theorem F.div_nan_right (z : F) : F.div z F.nan = F.nan := by cases z <;> rfl

theorem harmonicLoop_nan_sum :
    ∀ (xs : List F) (c : ℚ), harmonicLoop xs c F.nan = F.nan := by
  intro xs
  induction xs with
  | nil => intro c; simp [harmonicLoop, F.div_nan_right]
  | cons x t ih =>
      intro c
      by_cases hx : F.blt x (F.fin 0) = true
      · simp [harmonicLoop, hx]
      · have hx' : F.blt x (F.fin 0) = false := by simpa using hx
        simp only [harmonicLoop, hx', Bool.false_eq_true, if_false, F.add_nan_left]
        exact ih (c + 1)

theorem harmonicLoop_inf_sum :
    ∀ (xs : List F) (c : ℚ), 1 ≤ c →
      (∀ x ∈ xs, x ≠ F.nan ∧ x ≠ F.nzero ∧ F.blt x (F.fin 0) = false) →
      harmonicLoop xs c F.inf = F.fin 0 := by
  intro xs
  induction xs with
  | nil =>
      intro c hc _
      have h1 : (0 : ℚ) < c := by linarith
      have h2 : ¬ c < (0 : ℚ) := by linarith
      simp [harmonicLoop, h1, F.div, h2]
  | cons x t ih =>
      intro c hc hg
      obtain ⟨hxn, hxz, hxb⟩ := hg x (List.mem_cons_self x t)
      have hg' : ∀ y ∈ t, y ≠ F.nan ∧ y ≠ F.nzero ∧ F.blt y (F.fin 0) = false :=
        fun y hy => hg y (List.mem_cons_of_mem x hy)
      simp only [harmonicLoop, hxb, Bool.false_eq_true, if_false]
      cases x with
      | nan => exact absurd rfl hxn
      | nzero => exact absurd rfl hxz
      | ninf => simp [F.blt] at hxb
      | inf =>
          have hstep : F.add F.inf (F.div (F.fin 1) F.inf) = F.inf := by
            norm_num [F.div, F.add]
          rw [hstep]
          exact ih (c + 1) (by linarith) hg'
      | fin q =>
          have hq : ¬ q < 0 := by simpa [F.blt] using hxb
          have hstep : F.add F.inf (F.div (F.fin 1) (F.fin q)) = F.inf := by
            by_cases h0 : q = 0
            · subst h0; norm_num [F.div, F.add]
            · simp [F.div, h0, F.add]
          rw [hstep]
          exact ih (c + 1) (by linarith) hg'

theorem harmonicLoop_fin_sum :
    ∀ (xs : List F) (c q : ℚ), 0 ≤ c →
      (∀ x ∈ xs, x ≠ F.nan ∧ x ≠ F.nzero ∧ F.blt x (F.fin 0) = false) →
      F.fin 0 ∈ xs →
      harmonicLoop xs c (F.fin q) = F.fin 0 := by
  intro xs
  induction xs with
  | nil => intro c q _ _ hmem; simp at hmem
  | cons x t ih =>
      intro c q hc hg hmem
      obtain ⟨hxn, hxz, hxb⟩ := hg x (List.mem_cons_self x t)
      have hg' : ∀ y ∈ t, y ≠ F.nan ∧ y ≠ F.nzero ∧ F.blt y (F.fin 0) = false :=
        fun y hy => hg y (List.mem_cons_of_mem x hy)
      simp only [harmonicLoop, hxb, Bool.false_eq_true, if_false]
      cases x with
      | nan => exact absurd rfl hxn
      | nzero => exact absurd rfl hxz
      | ninf => simp [F.blt] at hxb
      | inf =>
          have hmem' : F.fin 0 ∈ t := by
            rcases List.mem_cons.mp hmem with h | h
            · exact absurd h (by simp)
            · exact h
          have hstep : F.add (F.fin q) (F.div (F.fin 1) F.inf) = F.fin q := by
            norm_num [F.div, F.add]
          rw [hstep]
          exact ih (c + 1) q (by linarith) hg' hmem'
      | fin r =>
          have hr : ¬ r < 0 := by simpa [F.blt] using hxb
          by_cases h0 : r = 0
          · subst h0
            have hstep : F.add (F.fin q) (F.div (F.fin 1) (F.fin 0)) = F.inf := by
              norm_num [F.div, F.add]
            rw [hstep]
            exact harmonicLoop_inf_sum t (c + 1) (by linarith) hg'
          · have hmem' : F.fin 0 ∈ t := by
              rcases List.mem_cons.mp hmem with h | h
              · exact absurd (F.fin.injEq 0 r ▸ h) (Ne.symm h0)
              · exact h
            have hstep : F.add (F.fin q) (F.div (F.fin 1) (F.fin r)) = F.fin (q + 1 / r) := by
              simp [F.div, h0, F.add]
            rw [hstep]
            exact ih (c + 1) (q + 1 / r) (by linarith) hg' hmem'

theorem harmonicLoop_neg :
    ∀ (pre : List F) (c : ℚ) (s : F) (x : F) (suf : List F),
      F.blt x (F.fin 0) = true → harmonicLoop (pre ++ x :: suf) c s = F.nan := by
  intro pre
  induction pre with
  | nil =>
      intro c s x suf hx
      simp [harmonicLoop, hx]
  | cons y p ih =>
      intro c s x suf hx
      by_cases hy : F.blt y (F.fin 0) = true
      · simp [harmonicLoop, hy]
      · have hy' : F.blt y (F.fin 0) = false := by simpa using hy
        simp only [List.cons_append, harmonicLoop, hy', Bool.false_eq_true, if_false]
        exact ih _ _ x suf hx

/-- C4: the harmonic mean of any sequence containing a strictly negative
element is not-a-number, and the check short-circuits: for any list
decomposing as `pre ++ x :: suf` with `x` strictly negative, the result is
not-a-number regardless of the elements after `x`. -/
theorem claim4_harmonic_negative :
    (∀ l : List F, (∃ x ∈ l, F.blt x (F.fin 0) = true) → harmonic_mean l = F.nan) ∧
    (∀ (pre suf : List F) (x : F), F.blt x (F.fin 0) = true →
      harmonic_mean (pre ++ x :: suf) = F.nan) := by
  constructor
  · intro l hx
    obtain ⟨x, hmem, hneg⟩ := hx
    obtain ⟨pre, suf, rfl⟩ := List.append_of_mem hmem
    exact harmonicLoop_neg pre 0 (F.fin 0) x suf hneg
  · intro pre suf x hx
    exact harmonicLoop_neg pre 0 (F.fin 0) x suf hx

/-- Witness for C4 at a concrete input: a negative value in the middle of
the sequence forces a not-a-number harmonic mean. -/
theorem claim4_harmonic_negative_witness :
    harmonic_mean [F.fin 1, F.fin (-2), F.fin 5] = F.nan :=
  claim4_harmonic_negative.2 [F.fin 1] [F.fin 5] (F.fin (-2)) (by decide)

/-- C5 as stated is false: `[0.0, -0.0]` contains an element exactly equal
to zero and no strictly negative element, yet its harmonic mean is
not-a-number rather than `0.0`. -/
theorem claim5_counterexample :
    F.fin 0 ∈ [F.fin 0, F.nzero] ∧
    (∀ x ∈ [F.fin 0, F.nzero], F.blt x (F.fin 0) = false) ∧
    harmonic_mean [F.fin 0, F.nzero] ≠ F.fin 0 := by
  refine ⟨by simp, by decide, ?_⟩
  have h : harmonic_mean [F.fin 0, F.nzero] = F.nan := by
    norm_num [harmonic_mean, harmonicLoop, F.blt, F.add, F.div]
  rw [h]
  simp

/-- C5, amended: if the sequence contains a positive-zero element and every
element is neither not-a-number nor negative zero nor strictly negative
(so each element is a nonnegative finite value or positive infinity), the
harmonic mean is exactly `0.0`: the reciprocal of zero makes the
reciprocal sum positive infinity and `count / inf = 0`. -/
theorem claim5_harmonic_zero_amended (l : List F)
    (hg : ∀ x ∈ l, x ≠ F.nan ∧ x ≠ F.nzero ∧ F.blt x (F.fin 0) = false)
    (h0 : F.fin 0 ∈ l) :
    harmonic_mean l = F.fin 0 :=
  harmonicLoop_fin_sum l 0 0 le_rfl hg h0

/-- Witness for amended C5 at the specification's example `[0.0, 3.0, 2.0]`. -/
theorem claim5_harmonic_zero_amended_witness :
    harmonic_mean [F.fin 0, F.fin 3, F.fin 2] = F.fin 0 :=
  claim5_harmonic_zero_amended [F.fin 0, F.fin 3, F.fin 2] (by decide) (by simp)

theorem harmonicLoop_inf_nzero :
    ∀ (xs : List F) (c : ℚ),
      (∀ x ∈ xs, F.blt x (F.fin 0) = false) → F.nzero ∈ xs →
      harmonicLoop xs c F.inf = F.nan := by
  intro xs
  induction xs with
  | nil => intro c _ hmem; simp at hmem
  | cons x t ih =>
      intro c h hmem
      have hx := h x (List.mem_cons_self x t)
      have h' : ∀ y ∈ t, F.blt y (F.fin 0) = false :=
        fun y hy => h y (List.mem_cons_of_mem x hy)
      simp only [harmonicLoop, hx, Bool.false_eq_true, if_false]
      cases x with
      | nan =>
          have hstep : F.add F.inf (F.div (F.fin 1) F.nan) = F.nan := rfl
          rw [hstep]
          exact harmonicLoop_nan_sum t (c + 1)
      | ninf => simp [F.blt] at hx
      | nzero =>
          have hstep : F.add F.inf (F.div (F.fin 1) F.nzero) = F.nan := by
            norm_num [F.div, F.add]
          rw [hstep]
          exact harmonicLoop_nan_sum t (c + 1)
      | inf =>
          have hmem' : F.nzero ∈ t := by
            rcases List.mem_cons.mp hmem with hh | hh
            · exact absurd hh (by simp)
            · exact hh
          have hstep : F.add F.inf (F.div (F.fin 1) F.inf) = F.inf := by
            norm_num [F.div, F.add]
          rw [hstep]
          exact ih (c + 1) h' hmem'
      | fin q =>
          have hmem' : F.nzero ∈ t := by
            rcases List.mem_cons.mp hmem with hh | hh
            · exact absurd hh (by simp)
            · exact hh
          have hstep : F.add F.inf (F.div (F.fin 1) (F.fin q)) = F.inf := by
            by_cases h0 : q = 0
            · subst h0; norm_num [F.div, F.add]
            · simp [F.div, h0, F.add]
          rw [hstep]
          exact ih (c + 1) h' hmem'

theorem harmonicLoop_ninf_zero :
    ∀ (xs : List F) (c : ℚ),
      (∀ x ∈ xs, F.blt x (F.fin 0) = false) → F.fin 0 ∈ xs →
      harmonicLoop xs c F.ninf = F.nan := by
  intro xs
  induction xs with
  | nil => intro c _ hmem; simp at hmem
  | cons x t ih =>
      intro c h hmem
      have hx := h x (List.mem_cons_self x t)
      have h' : ∀ y ∈ t, F.blt y (F.fin 0) = false :=
        fun y hy => h y (List.mem_cons_of_mem x hy)
      simp only [harmonicLoop, hx, Bool.false_eq_true, if_false]
      cases x with
      | nan =>
          have hstep : F.add F.ninf (F.div (F.fin 1) F.nan) = F.nan := rfl
          rw [hstep]
          exact harmonicLoop_nan_sum t (c + 1)
      | ninf => simp [F.blt] at hx
      | nzero =>
          have hmem' : F.fin 0 ∈ t := by
            rcases List.mem_cons.mp hmem with hh | hh
            · exact absurd hh (by simp)
            · exact hh
          have hstep : F.add F.ninf (F.div (F.fin 1) F.nzero) = F.ninf := by
            norm_num [F.div, F.add]
          rw [hstep]
          exact ih (c + 1) h' hmem'
      | inf =>
          have hmem' : F.fin 0 ∈ t := by
            rcases List.mem_cons.mp hmem with hh | hh
            · exact absurd hh (by simp)
            · exact hh
          have hstep : F.add F.ninf (F.div (F.fin 1) F.inf) = F.ninf := by
            norm_num [F.div, F.add]
          rw [hstep]
          exact ih (c + 1) h' hmem'
      | fin q =>
          by_cases h0 : q = 0
          · subst h0
            have hstep : F.add F.ninf (F.div (F.fin 1) (F.fin 0)) = F.nan := by
              norm_num [F.div, F.add]
            rw [hstep]
            exact harmonicLoop_nan_sum t (c + 1)
          · have hmem' : F.fin 0 ∈ t := by
              rcases List.mem_cons.mp hmem with hh | hh
              · exact absurd (F.fin.inj hh).symm h0
              · exact hh
            have hstep : F.add F.ninf (F.div (F.fin 1) (F.fin q)) = F.ninf := by
              simp [F.div, h0, F.add]
            rw [hstep]
            exact ih (c + 1) h' hmem'

theorem harmonicLoop_fin_both :
    ∀ (xs : List F) (c p : ℚ),
      (∀ x ∈ xs, F.blt x (F.fin 0) = false) → F.fin 0 ∈ xs → F.nzero ∈ xs →
      harmonicLoop xs c (F.fin p) = F.nan := by
  intro xs
  induction xs with
  | nil => intro c p _ hmem _; simp at hmem
  | cons x t ih =>
      intro c p h hmem0 hmemz
      have hx := h x (List.mem_cons_self x t)
      have h' : ∀ y ∈ t, F.blt y (F.fin 0) = false :=
        fun y hy => h y (List.mem_cons_of_mem x hy)
      simp only [harmonicLoop, hx, Bool.false_eq_true, if_false]
      cases x with
      | nan =>
          have hstep : F.add (F.fin p) (F.div (F.fin 1) F.nan) = F.nan := rfl
          rw [hstep]
          exact harmonicLoop_nan_sum t (c + 1)
      | ninf => simp [F.blt] at hx
      | nzero =>
          have hmem0' : F.fin 0 ∈ t := by
            rcases List.mem_cons.mp hmem0 with hh | hh
            · exact absurd hh (by simp)
            · exact hh
          have hstep : F.add (F.fin p) (F.div (F.fin 1) F.nzero) = F.ninf := by
            norm_num [F.div, F.add]
          rw [hstep]
          exact harmonicLoop_ninf_zero t (c + 1) h' hmem0'
      | inf =>
          have hmem0' : F.fin 0 ∈ t := by
            rcases List.mem_cons.mp hmem0 with hh | hh
            · exact absurd hh (by simp)
            · exact hh
          have hmemz' : F.nzero ∈ t := by
            rcases List.mem_cons.mp hmemz with hh | hh
            · exact absurd hh (by simp)
            · exact hh
          have hstep : F.add (F.fin p) (F.div (F.fin 1) F.inf) = F.fin p := by
            norm_num [F.div, F.add]
          rw [hstep]
          exact ih (c + 1) p h' hmem0' hmemz'
      | fin q =>
          have hmemz' : F.nzero ∈ t := by
            rcases List.mem_cons.mp hmemz with hh | hh
            · exact absurd hh (by simp)
            · exact hh
          by_cases h0 : q = 0
          · subst h0
            have hstep : F.add (F.fin p) (F.div (F.fin 1) (F.fin 0)) = F.inf := by
              norm_num [F.div, F.add]
            rw [hstep]
            exact harmonicLoop_inf_nzero t (c + 1) h' hmemz'
          · have hmem0' : F.fin 0 ∈ t := by
              rcases List.mem_cons.mp hmem0 with hh | hh
              · exact absurd (F.fin.inj hh).symm h0
              · exact hh
            have hstep : F.add (F.fin p) (F.div (F.fin 1) (F.fin q)) = F.fin (p + 1 / q) := by
              simp [F.div, h0, F.add]
            rw [hstep]
            exact ih (c + 1) (p + 1 / q) h' hmem0' hmemz'

/-- C9 as stated is false in its mechanism: negative zero does NOT pass
the `val < 0` check (the IEEE comparison `-0.0 < 0.0` is false), so there
is no short-circuit on `-0.0`; indeed `harmonic_mean([-0.0])` is `-0.0`,
not not-a-number. -/
theorem claim9_counterexample :
    F.blt F.nzero (F.fin 0) = false ∧ harmonic_mean [F.nzero] = F.nzero := by
  refine ⟨rfl, ?_⟩
  norm_num [harmonic_mean, harmonicLoop, F.blt, F.add, F.div]

/-- C9, amended: a sequence containing both positive zero and negative
zero and no strictly negative element has a not-a-number harmonic mean —
but not via the `val < 0` check, which negative zero does not pass;
rather, the reciprocal of negative zero is negative infinity and
`inf + (-inf)` makes the reciprocal sum not-a-number. -/
theorem claim9_harmonic_signed_zero_amended :
    (∀ l : List F, F.fin 0 ∈ l → F.nzero ∈ l →
      (∀ x ∈ l, F.blt x (F.fin 0) = false) → harmonic_mean l = F.nan) ∧
    F.blt F.nzero (F.fin 0) = false ∧
    F.div (F.fin 1) F.nzero = F.ninf ∧
    F.add F.inf F.ninf = F.nan := by
  refine ⟨fun l h0 hz hg => harmonicLoop_fin_both l 0 0 hg h0 hz, rfl, ?_, rfl⟩
  norm_num [F.div]

/-- Witness for amended C9 at the concrete input `[0.0, -0.0]`. -/
theorem claim9_harmonic_signed_zero_amended_witness :
    harmonic_mean [F.fin 0, F.nzero] = F.nan :=
  claim9_harmonic_signed_zero_amended.1 [F.fin 0, F.nzero] (by simp) (by simp) (by decide)

/-! ### The geometric-mean fold -/

theorem geoFold_count (lnF : ℚ → ℚ) :
    ∀ (xs : List F) (c : ℚ) (s : F),
      (xs.foldl (geoStep lnF) (c, s)).1 = c + xs.length := by
  intro xs
  induction xs with
  | nil => intro c s; simp
  | cons x t ih =>
      intro c s
      rw [List.foldl_cons]
      show (t.foldl (geoStep lnF) (c + 1, _)).1 = _
      rw [ih]
      simp only [List.length_cons]
      push_cast
      ring

theorem geoFold_sum (lnF : ℚ → ℚ) :
    ∀ (xs : List F) (c : ℚ) (s : F),
      (xs.foldl (geoStep lnF) (c, s)).2 = (xs.map (F.ln lnF)).foldl F.add s := by
  intro xs
  induction xs with
  | nil => intro c s; rfl
  | cons x t ih =>
      intro c s
      rw [List.foldl_cons, List.map_cons, List.foldl_cons]
      exact ih (c + 1) (F.add s (F.ln lnF x))

theorem foldl_add_to_ninf :
    ∀ (xs : List F) (s : F),
      (∀ y ∈ xs, y = F.ninf ∨ ∃ q, y = F.fin q) →
      (s = F.ninf ∨ ∃ q, s = F.fin q) →
      (F.ninf ∈ xs ∨ s = F.ninf) →
      xs.foldl F.add s = F.ninf := by
  intro xs
  induction xs with
  | nil =>
      intro s _ _ hm
      rcases hm with h | h
      · simp at h
      · simpa using h
  | cons x t ih =>
      intro s hy hs hm
      rw [List.foldl_cons]
      rcases hy x (List.mem_cons_self x t) with rfl | ⟨q, rfl⟩
      · -- head is -inf: the accumulator becomes -inf
        have hstep : F.add s F.ninf = F.ninf := by
          rcases hs with rfl | ⟨p, rfl⟩ <;> rfl
        rw [hstep]
        exact ih F.ninf (fun y hyt => hy y (List.mem_cons_of_mem _ hyt))
          (Or.inl rfl) (Or.inr rfl)
      · -- head is finite
        have ht : ∀ y ∈ t, y = F.ninf ∨ ∃ p, y = F.fin p :=
          fun y hyt => hy y (List.mem_cons_of_mem _ hyt)
        rcases hs with rfl | ⟨p, rfl⟩
        · rw [(rfl : F.add F.ninf (F.fin q) = F.ninf)]
          exact ih F.ninf ht (Or.inl rfl) (Or.inr rfl)
        · have hm' : F.ninf ∈ t := by
            rcases hm with h | h
            · rcases List.mem_cons.mp h with hh | hh
              · exact absurd hh.symm (by simp)
              · exact hh
            · exact absurd h (by simp)
          rw [(rfl : F.add (F.fin p) (F.fin q) = F.fin (p + q))]
          exact ih (F.fin (p + q)) ht (Or.inr ⟨p + q, rfl⟩) (Or.inl hm')

/-- C3 as stated is false: `[0.0, inf]` contains an element exactly equal
to zero and no negative element, yet its geometric mean is not-a-number
(`ln 0 = -inf`, `ln inf = inf`, and `-inf + inf` is not-a-number), not
`0.0`; this holds for any values of the transcendental parameters. -/
theorem claim3_counterexample :
    F.fin 0 ∈ [F.fin 0, F.inf] ∧
    (∀ x ∈ [F.fin 0, F.inf], F.blt x (F.fin 0) = false) ∧
    geometric_mean (fun _ => 0) (fun _ => F.fin 1) [F.fin 0, F.inf] ≠ F.fin 0 := by
  refine ⟨by simp, by decide, ?_⟩
  have h : geometric_mean (fun _ => 0) (fun _ => F.fin 1) [F.fin 0, F.inf] = F.nan := by
    norm_num [geometric_mean, geoStep, F.add, F.ln, F.div, F.exp]
  rw [h]
  simp

/-- C3, amended: if some element equals zero (positive or negative zero),
no element is strictly negative, and no element is not-a-number or
positive infinity, the geometric mean is exactly `0.0`: the logarithm of
zero is negative infinity, which drives the log sum to negative infinity,
and `exp (-inf) = 0` — for every value of the transcendental
parameters. -/
theorem claim3_geometric_zero_amended (lnF : ℚ → ℚ) (expF : ℚ → F) (l : List F)
    (hg : ∀ x ∈ l, x ≠ F.nan ∧ x ≠ F.inf ∧ F.blt x (F.fin 0) = false)
    (hz : F.fin 0 ∈ l ∨ F.nzero ∈ l) :
    geometric_mean lnF expF l = F.fin 0 := by
  have hne : l ≠ [] := by rintro rfl; rcases hz with h | h <;> simp at h
  have hmap : ∀ y ∈ l.map (F.ln lnF), y = F.ninf ∨ ∃ q, y = F.fin q := by
    intro y hy
    rcases List.mem_map.mp hy with ⟨z, hzl, rfl⟩
    obtain ⟨hzn, hzi, hzb⟩ := hg z hzl
    cases z with
    | nan => exact absurd rfl hzn
    | inf => exact absurd rfl hzi
    | ninf => simp [F.blt] at hzb
    | nzero => exact Or.inl rfl
    | fin q =>
        have hq : ¬ q < 0 := by simpa [F.blt] using hzb
        by_cases h0 : q = 0
        · left; simp [F.ln, h0]
        · right; exact ⟨lnF q, by simp [F.ln, h0, hq]⟩
  have hninf : F.ninf ∈ l.map (F.ln lnF) := by
    rcases hz with h | h
    · exact List.mem_map.mpr ⟨F.fin 0, h, by simp [F.ln]⟩
    · exact List.mem_map.mpr ⟨F.nzero, h, rfl⟩
  have hsum : (l.foldl (geoStep lnF) ((0 : ℚ), F.fin 0)).2 = F.ninf := by
    rw [geoFold_sum]
    exact foldl_add_to_ninf _ _ hmap (Or.inr ⟨0, rfl⟩) (Or.inl hninf)
  have hc : (l.foldl (geoStep lnF) ((0 : ℚ), F.fin 0)).1 = l.length := by
    rw [geoFold_count]
    ring
  have hlen : (0 : ℚ) < l.length := by exact_mod_cast List.length_pos.mpr hne
  simp only [geometric_mean]
  rw [if_pos (by rw [hc]; exact hlen), hsum, hc]
  have hdiv : F.div F.ninf (F.fin (l.length : ℚ)) = F.ninf := by
    simp [F.div, not_lt.mpr hlen.le]
  rw [hdiv]
  rfl

/-- Witness for amended C3 at the specification's example `[0.0, 3.0, 2.0]`. -/
theorem claim3_geometric_zero_amended_witness :
    geometric_mean (fun _ => 0) (fun _ => F.fin 1) [F.fin 0, F.fin 3, F.fin 2]
      = F.fin 0 :=
  claim3_geometric_zero_amended (fun _ => 0) (fun _ => F.fin 1)
    [F.fin 0, F.fin 3, F.fin 2] (by decide) (by simp)

/-- C6: on the empty sequence all five operations return not-a-number
(each is a total function into the model of `f64`, so no other failure
channel exists); the geometric mean does so for every value of the
transcendental parameters. -/
theorem claim6_empty_all_nan :
    abs_min ([] : List F) = F.nan ∧
    abs_max ([] : List F) = F.nan ∧
    mean ([] : List F) = F.nan ∧
    (∀ (lnF : ℚ → ℚ) (expF : ℚ → F), geometric_mean lnF expF [] = F.nan) ∧
    harmonic_mean ([] : List F) = F.nan := by
  refine ⟨rfl, rfl, ?_, fun lnF expF => ?_, ?_⟩
  · norm_num [mean]
  · norm_num [geometric_mean]
  · norm_num [harmonic_mean, harmonicLoop]

/-- Witness for C6, instantiating the transcendental parameters of the
geometric mean. -/
theorem claim6_empty_all_nan_witness :
    geometric_mean (fun _ => 0) (fun _ => F.fin 1) [] = F.nan :=
  claim6_empty_all_nan.2.2.2.1 (fun _ => 0) (fun _ => F.fin 1)

/-- C8: the mean of `[0.0, 3.0, -2.0]` is a finite value within `1e-15` of
`1/3` (in the exact-arithmetic model it is exactly `1/3`). -/
theorem claim8_mean_example :
    ∃ q : ℚ, mean [F.fin 0, F.fin 3, F.fin (-2)] = F.fin q ∧
      |q - 1 / 3| ≤ 1 / 10 ^ 15 := by
  refine ⟨1 / 3, ?_, by norm_num⟩
  norm_num [mean, meanStep, F.add, F.sub, F.neg, F.div]

/-- C10: there is a non-empty sequence with no not-a-number element whose
mean is not-a-number: on `[inf, -inf]` the incremental update computes
`inf + ((-inf - inf) / 2) = inf + (-inf)`, which is not-a-number. -/
theorem claim10_mean_nan_without_nan_element :
    F.nan ∉ [F.inf, F.ninf] ∧
    ([F.inf, F.ninf] ≠ ([] : List F)) ∧
    mean [F.inf, F.ninf] = F.nan := by
  refine ⟨by simp, by simp, ?_⟩
  norm_num [mean, meanStep, F.add, F.sub, F.neg, F.div]
